import Mathlib

/-!
Verification development for the LinkedIn jobs wrapper repository.

The repository contains three express servers sharing one pipeline design:
the richest variant (src/server.js, suffix-free names below), a variant
built on the linkedin-jobs-api package with a scoring pass and a fuzzy
fallback (src/unnamed/part_000, names suffixed Z), and a cheerio variant
with an identity filter after normalization (src/unnamed/part_001, names
suffixed B).  Strings are modelled by Lean String, JS string truthiness by
comparison with the empty string, and JS regular expressions by explicit
scanning functions over character lists.
-/

set_option maxRecDepth 100000

/-! ## String utilities shared by all variants -/

/-- Whitespace class used by the JS regexes and trims in the sources
(the inputs handled by the pipeline only contain these ASCII blanks). -/
def isWsChar (c : Char) : Bool :=
  c == ' ' || c == '\t' || c == '\n' || c == '\r'

/-- Boolean list prefix test. -/
def isPrefixB : List Char → List Char → Bool
  | [], _ => true
  | _ :: _, [] => false
  | a :: as, b :: bs => a == b && isPrefixB as bs

/-- Boolean substring occurrence test: the first argument occurs inside the
second one (JS String.prototype.includes). -/
def isSubLC (n : List Char) : List Char → Bool
  | [] => n.isEmpty
  | c :: h => isPrefixB n (c :: h) || isSubLC n h

/-- JS hay.includes(needle). -/
def strIncludes (hay needle : String) : Bool :=
  isSubLC needle.data hay.data

/-- JS s.startsWith(p). -/
def startsWithStr (s p : String) : Bool :=
  isPrefixB p.data s.data

/-- JS s.toLowerCase() on the ASCII data this pipeline handles. -/
def toLowerStr (s : String) : String :=
  String.mk (s.data.map Char.toLower)

/-- Drop trailing whitespace from a character list. -/
def dropTrail (l : List Char) : List Char :=
  (l.reverse.dropWhile isWsChar).reverse

/-- JS s.trim() at the character-list level. -/
def trimL (l : List Char) : List Char :=
  dropTrail (l.dropWhile isWsChar)

/-- JS s.trim(). -/
def jsTrim (s : String) : String :=
  String.mk (trimL s.data)

/-- JS a or-else b on strings: the empty string is falsy. -/
def jsOr (a b : String) : String :=
  if a == "" then b else a

/-- JS chained or-else over strings, yielding the empty string when all
alternatives are falsy. -/
def firstTruthy : List String → String
  | [] => ""
  | s :: rest => if s == "" then firstTruthy rest else s

/-- Replace every run of characters satisfying p by a single space
(JS s.replace of a one-or-more character class by a space); the Bool flag
records whether the previous character belonged to a run. -/
def collapseRuns (p : Char → Bool) : Bool → List Char → List Char
  | _, [] => []
  | prev, c :: rest =>
    if p c then
      if prev then collapseRuns p true rest
      else ' ' :: collapseRuns p true rest
    else c :: collapseRuns p false rest

/-- Boolean membership in a list of strings (JS Set.has on string keys). -/
def memStr (k : String) : List String → Bool
  | [] => false
  | s :: rest => (k == s) || memStr k rest

/-! ## server.js: utilities -/

/-- server.js TITLE_KEYWORDS (already lower case in the source). -/
def TITLE_KEYWORDS : List String :=
  ["service desk", "help desk", "helpdesk", "desktop support", "technical support",
   "support specialist", "service desk technician", "help desk technician",
   "msp", "managed service", "it support", "it technician", "field technician",
   "support engineer", "support analyst", "desk engineer", "support tech"]

/-- server.js REMOTE_TOKENS. -/
def REMOTE_TOKENS : List String :=
  ["remote", "work from home", "wfh", "distributed", "telecommute", "work-from-home"]

/-- server.js CONTRACT_TOKENS. -/
def CONTRACT_TOKENS : List String :=
  ["contract", "contractor", "temp", "temporary", "freelance", "fixed-term",
   "fixed term", "6 month", "12 month", "6-month", "12-month", "contract role",
   "on contract"]

/-- Word characters for the JS regex word boundary. -/
def isWordChar (c : Char) : Bool :=
  c.isAlpha || c.isDigit || c == '_'

/-- JS s.replace of word-bounded US (case insensitive, global) by the text
United States; the Bool flag records whether the previous original character
was a word character. -/
def replaceUS : Bool → List Char → List Char
  | _, [] => []
  | _, [c] => [c]
  | prev, c :: d :: rest =>
    if !prev && (c == 'U' || c == 'u') && (d == 'S' || d == 's')
        && (match rest with | [] => true | e :: _ => !isWordChar e) then
      ("United States".data) ++ replaceUS true rest
    else
      c :: replaceUS (isWordChar c) (d :: rest)

/-- Character class of the JS regex combining commas and whitespace. -/
def isWsOrComma (c : Char) : Bool :=
  isWsChar c || c == ','

/-- Split a character list at whitespace, dropping empty pieces
(JS split on a one-or-more whitespace regex applied to trimmed input). -/
def splitWsGo (cur : List Char) : List Char → List String
  | [] => if cur.isEmpty then [] else [String.mk cur.reverse]
  | c :: rest =>
    if isWsChar c then
      if cur.isEmpty then splitWsGo [] rest
      else String.mk cur.reverse :: splitWsGo [] rest
    else splitWsGo (c :: cur) rest

/-- Insertion-ordered removal of duplicate strings (JS Set construction). -/
def dedupStringsGo (seen : List String) : List String → List String
  | [] => []
  | s :: rest =>
    if memStr s seen then dedupStringsGo seen rest
    else s :: dedupStringsGo (s :: seen) rest

/-- server.js normalizeLocation: trim, expand word-bounded US to United
States, collapse comma-and-whitespace runs to single spaces, trim again and
remove duplicate whitespace-separated tokens keeping first occurrences. -/
def normalizeLocation (loc : String) : String :=
  if loc == "" then ""
  else
    let s1 := jsTrim loc
    let s2 := String.mk (replaceUS false s1.data)
    let s3 := jsTrim (String.mk (collapseRuns isWsOrComma false s2.data))
    String.intercalate " " (dedupStringsGo [] (splitWsGo [] s3.data))

/-- Maximal leading digit run (the greedy one-or-more digit group). -/
def digitsAfter (cs : List Char) : List Char :=
  cs.takeWhile Char.isDigit

/-- Leftmost match of the JS regex for a /jobs/view/ path segment followed
by at least one digit; yields the digit group. -/
def findJobsView : List Char → Option (List Char)
  | [] => none
  | c :: rest =>
    if isPrefixB ("/jobs/view/".data) (c :: rest) then
      let ds := digitsAfter ((c :: rest).drop 11)
      if ds.isEmpty then findJobsView rest else some ds
    else findJobsView rest

/-- Leftmost match of the JS regex for a currentJobId query parameter
preceded by a question mark or ampersand; yields the digit group. -/
def findCurJob : List Char → Option (List Char)
  | [] => none
  | c :: rest =>
    if (c == '?' || c == '&') && isPrefixB ("currentJobId=".data) rest then
      let ds := digitsAfter (rest.drop 13)
      if ds.isEmpty then findCurJob rest else some ds
    else findCurJob rest

/-- server.js extractJobId: first regex match wins, empty string when the
url is falsy or neither pattern matches. -/
def extractJobId (url : String) : String :=
  if url == "" then ""
  else
    match findJobsView url.data with
    | some ds => String.mk ds
    | none =>
      match findCurJob url.data with
      | some ds => String.mk ds
      | none => ""

/-- server.js joinText: drop falsy parts, join with spaces, collapse
whitespace runs, trim, lower case. -/
def joinText (l : List String) : String :=
  toLowerStr (jsTrim (String.mk (collapseRuns isWsChar false
    (String.intercalate " " (l.filter (fun s => !(s == "")))).data)))

/-- server.js containsAny: false on falsy hay, otherwise token substring
search over the lower-cased hay. -/
def containsAny (hay : String) (tokens : List String) : Bool :=
  if hay == "" then false
  else tokens.any (fun t => strIncludes (toLowerStr hay) t)

/-! ## server.js: data model and pipeline -/

/-- A raw upstream record: the union of every field alias read by the
normalizers of server.js and part 001; absent fields are empty strings. -/
structure RawRecord where
  position : String := ""
  title : String := ""
  jobTitle : String := ""
  company : String := ""
  companyName : String := ""
  subtitle : String := ""
  location : String := ""
  region : String := ""
  jobLocation : String := ""
  date : String := ""
  postedAt : String := ""
  posted : String := ""
  salary : String := ""
  compensation : String := ""
  jobUrl : String := ""
  applyUrl : String := ""
  url : String := ""
  companyLogo : String := ""
  logo : String := ""
  description : String := ""
  snippet : String := ""
  agoTime : String := ""
  age : String := ""
deriving DecidableEq

/-- The canonical posting produced by the normalizers; the agoTime field is
only populated by the part 001 variant, and the derived fields companyUrl,
isRemote, isContract and jobId are only populated by the server.js
deduplicator. -/
structure Posting where
  position : String := ""
  company : String := ""
  location : String := ""
  date : String := ""
  salary : String := ""
  jobUrl : String := ""
  companyLogo : String := ""
  description : String := ""
  agoTime : String := ""
  companyUrl : String := ""
  isRemote : Bool := false
  isContract : Bool := false
  jobId : String := ""
deriving DecidableEq

/-- server.js normalizeJob: fixed alias-priority mapping with trims and a
literal salary fallback. -/
def normalizeJob (raw : RawRecord) : Posting :=
  { position := jsTrim (firstTruthy [raw.position, raw.title, raw.jobTitle])
    company := jsTrim (firstTruthy [raw.company, raw.companyName, raw.subtitle])
    location := jsTrim (firstTruthy [raw.location, raw.region, raw.jobLocation])
    date := jsTrim (firstTruthy [raw.date, raw.postedAt, raw.posted])
    salary := jsTrim (firstTruthy [raw.salary, raw.compensation, "Not specified"])
    jobUrl := jsTrim (firstTruthy [raw.jobUrl, raw.applyUrl, raw.url])
    companyLogo := jsTrim (firstTruthy [raw.companyLogo, raw.logo])
    description := jsTrim (firstTruthy [raw.description, raw.snippet]) }

/-- server.js filter 1: keep postings whose joined position, company and
description text contains a title keyword. -/
def titleFilter (js : List Posting) : List Posting :=
  js.filter (fun j =>
    TITLE_KEYWORDS.any (fun k => strIncludes (joinText [j.position, j.company, j.description]) k))

/-- server.js remote-filter predicate over location, position, company,
description and url. -/
def remotePred (j : Posting) : Bool :=
  containsAny (joinText [j.location, j.position, j.company, j.description, j.jobUrl]) REMOTE_TOKENS

/-- server.js contract-filter predicate over position, company, description
and url. -/
def contractPred (j : Posting) : Bool :=
  containsAny (joinText [j.position, j.company, j.description, j.jobUrl]) CONTRACT_TOKENS

/-- server.js filter 2: the remote filter is applied unconditionally
whenever it was requested. -/
def remoteStage (requested : Bool) (js : List Posting) : List Posting :=
  if requested then js.filter remotePred else js

/-- server.js filter 3: the contract filter is applied unconditionally
whenever it was requested. -/
def contractStage (requested : Bool) (js : List Posting) : List Posting :=
  if requested then js.filter contractPred else js

/-- server.js filter chain. -/
def filtersA (requireRemote requireContract : Bool) (js : List Posting) : List Posting :=
  contractStage requireContract (remoteStage requireRemote (titleFilter js))

/-- server.js dedup key: numeric job id from the url when parseable, else
the full url when non-empty, else the position and company pair, each case
carrying its distinguishing prefix. -/
def dedupKey (j : Posting) : String :=
  if !(extractJobId j.jobUrl == "") then "id:" ++ extractJobId j.jobUrl
  else if !(j.jobUrl == "") then "url:" ++ j.jobUrl
  else "pc:" ++ j.position ++ "|" ++ j.company

/-- server.js relative-url rewrite applied to kept postings. -/
def absolutizeUrl (u : String) : String :=
  if !(u == "") && startsWithStr u "/" then "https://www.linkedin.com" ++ u else u

/-- The side assignments server.js performs on a kept posting: absolute
url, derived remote and contract flags over the rewritten url, and the job
id falling back to the dedup key, both computed from the original url. -/
def mutateP (j : Posting) : Posting :=
  let u := absolutizeUrl j.jobUrl
  let hay := joinText [j.location, j.position, j.company, j.description, u]
  { j with
    jobUrl := u
    isRemote := containsAny hay REMOTE_TOKENS
    isContract := containsAny hay CONTRACT_TOKENS
    jobId := jsOr (extractJobId j.jobUrl) (dedupKey j) }

/-- server.js dedup loop with its seen-key set. -/
def dedupeGo (seen : List String) : List Posting → List Posting
  | [] => []
  | j :: rest =>
    if memStr (dedupKey j) seen then dedupeGo seen rest
    else mutateP j :: dedupeGo (dedupKey j :: seen) rest

/-- server.js deduplicator. -/
def dedupe (js : List Posting) : List Posting :=
  dedupeGo [] js

/-- server.js pipeline from parsed raw records to deduplicated postings. -/
def pipelineA (requireRemote requireContract : Bool) (raws : List RawRecord) : List Posting :=
  dedupe (filtersA requireRemote requireContract (raws.map normalizeJob))

/-- server.js final output list: the deduplicated postings truncated to the
requested limit. -/
def outputJobsA (requireRemote requireContract : Bool) (limit : Nat)
    (raws : List RawRecord) : List Posting :=
  (pipelineA requireRemote requireContract raws).take limit

/-! ## part 000 (linkedin-jobs-api variant): scoring, fuzzy fallback and
soft remote constraint -/

/-- A job record as consumed by the part 000 server: the union of the
fields read by its textFor helper; absent fields are empty strings. -/
structure JobZ where
  position : String := ""
  title : String := ""
  name : String := ""
  description : String := ""
  snippet : String := ""
  summary : String := ""
  company : String := ""
  companyName : String := ""
  location : String := ""
  jobUrl : String := ""
deriving DecidableEq

/-- part 000 textFor: push the truthy fields in source order, join with
spaces and lower case. -/
def textFor (j : JobZ) : String :=
  toLowerStr (String.intercalate " "
    (([j.position, j.title, j.name, j.description, j.snippet, j.summary,
       j.company, j.companyName, j.location, j.jobUrl]).filter (fun s => !(s == ""))))

/-- part 000 mustKeywords. -/
def mustKeywordsZ : List String :=
  ["service desk", "help desk", "helpdesk", "service-desk", "help-desk"]

/-- part 000 broaderKeywords. -/
def broaderKeywordsZ : List String :=
  ["desktop support", "it support", "technician", "msp", "support engineer",
   "field tech", "1st line", "1st-line", "level 1", "level 2"]

/-- part 000 remoteIndicators. -/
def remoteIndicatorsZ : List String :=
  ["remote", "work from home", "wfh", "work-from-home", "hybrid"]

/-- part 000 scoreJob: sixty points per matched must keyword, eight per
broader keyword, ten per remote indicator, plus twelve when the location
itself contains the word remote. -/
def scoreJob (j : JobZ) (must broader remote : List String) : Nat :=
  60 * must.countP (fun k => strIncludes (textFor j) k)
    + 8 * broader.countP (fun k => strIncludes (textFor j) k)
    + 10 * remote.countP (fun k => strIncludes (textFor j) k)
    + (if strIncludes (toLowerStr j.location) "remote" then 12 else 0)

/-- Stable insertion of a scored job into a descending-sorted list: the
inserted element precedes strictly smaller scores and elements of equal
score that occurred later in the input (the JS sort comparator on scores is
stable). -/
def insertDesc (x : JobZ × Nat) : List (JobZ × Nat) → List (JobZ × Nat)
  | [] => [x]
  | y :: ys => if y.2 ≤ x.2 then x :: y :: ys else y :: insertDesc x ys

/-- Stable descending sort by score. -/
def sortDesc : List (JobZ × Nat) → List (JobZ × Nat)
  | [] => []
  | x :: xs => insertDesc x (sortDesc xs)

/-- part 000 strict pass: score, keep positive scores, sort descending by
score (stable) and forget the scores. -/
def strictPass (js : List JobZ) (must : List String) : List JobZ :=
  (sortDesc ((js.map (fun j => (j, scoreJob j must broaderKeywordsZ remoteIndicatorsZ))).filter
    (fun x => 0 < x.2))).map Prod.fst

/-- part 000 fuzzy predicate: the matching text contains some broader or
some must keyword. -/
def fuzzyPred (must : List String) (j : JobZ) : Bool :=
  broaderKeywordsZ.any (fun k => strIncludes (textFor j) k)
    || must.any (fun k => strIncludes (textFor j) k)

/-- part 000 fuzzy fallback list, capped to the requested limit. -/
def fuzzyList (js : List JobZ) (must : List String) (limit : Nat) : List JobZ :=
  (js.filter (fuzzyPred must)).take limit

/-- part 000 result list before the remote constraint: the strict pass, or
the fuzzy fallback when the strict pass is empty. -/
def finalBeforeRemote (js : List JobZ) (must : List String) (limit : Nat) : List JobZ :=
  let s := strictPass js must
  if s.isEmpty then fuzzyList js must limit else s

/-- part 000 remote predicate: a remote indicator in the matching text, or
the word remote in the location. -/
def remotePredZ (j : JobZ) : Bool :=
  remoteIndicatorsZ.any (fun k => strIncludes (textFor j) k)
    || (!(j.location == "") && strIncludes (toLowerStr j.location) "remote")

/-- part 000 remote constraint: keep the filtered list only when it is
non-empty, otherwise keep the pre-constraint list. -/
def applyRemoteZ (requested : Bool) (l : List JobZ) : List JobZ :=
  if requested then
    let f := l.filter remotePredZ
    if f.isEmpty then l else f
  else l

/-! ## part 001 (cheerio variant): normalizer identity filter, HTML cards
and the simpler deduplicator -/

/-- part 001 normalizeJob: the server.js mapping extended with agoTime. -/
def normalizeJobB (raw : RawRecord) : Posting :=
  { position := jsTrim (firstTruthy [raw.position, raw.title, raw.jobTitle])
    company := jsTrim (firstTruthy [raw.company, raw.companyName, raw.subtitle])
    location := jsTrim (firstTruthy [raw.location, raw.region, raw.jobLocation])
    date := jsTrim (firstTruthy [raw.date, raw.postedAt, raw.posted])
    salary := jsTrim (firstTruthy [raw.salary, raw.compensation, "Not specified"])
    jobUrl := jsTrim (firstTruthy [raw.jobUrl, raw.applyUrl, raw.url])
    companyLogo := jsTrim (firstTruthy [raw.companyLogo, raw.logo])
    agoTime := jsTrim (firstTruthy [raw.agoTime, raw.age])
    description := jsTrim (firstTruthy [raw.description, raw.snippet]) }

/-- part 001 identity check: position or company truthy. -/
def identityPred (j : Posting) : Bool :=
  !(j.position == "") || !(j.company == "")

/-- part 001 normalization stage: map the normalizer over the raw records,
then drop records failing the identity check. -/
def normalizedStageB (raws : List RawRecord) : List Posting :=
  (raws.map normalizeJobB).filter identityPred

/-- A raw record as produced by the HTML extraction engines. -/
structure HtmlRec where
  position : String := ""
  company : String := ""
  location : String := ""
  jobUrl : String := ""
  description : String := ""
deriving DecidableEq

/-- A card as seen by the server.js HTML parser after its DOM queries: the
text of the first title match for the combined title selector, the text of
the first anchor, the first company and location match texts, and the href
attribute of the first anchor matched by the combined anchor selector. -/
structure CardA where
  titleText : String := ""
  anchorText : String := ""
  companyText : String := ""
  locationText : String := ""
  href : Option String := none
deriving DecidableEq

/-- server.js per-card extraction: title text with anchor-text fallback,
trimmed company and location, href defaulting to the empty string and
rewritten to absolute when it starts with a slash; every card yields a
record. -/
def extractA (c : CardA) : HtmlRec :=
  { position := jsOr (jsTrim c.titleText) (jsTrim c.anchorText)
    company := jsTrim c.companyText
    location := jsTrim c.locationText
    jobUrl := absolutizeUrl (c.href.getD "")
    description := "" }

/-- server.js HTML extraction over the recognized cards. -/
def parseHtmlA (cards : List CardA) : List HtmlRec :=
  cards.map extractA

/-- A card as seen by the part 001 HTML parser: the first-match text per
title, company and location selector in cascade order, the first anchor
text, and the href attribute of the first match per anchor selector. -/
structure CardB where
  titleSels : List String := []
  anchorText : String := ""
  companySels : List String := []
  locationSels : List String := []
  hrefs : List (Option String) := []
deriving DecidableEq

/-- First selector result that is non-empty after trimming. -/
def firstNonEmptyTrimmed (l : List String) : String :=
  firstTruthy (l.map jsTrim)

/-- part 001 anchor cascade: accept the first truthy href that contains a
jobs path segment or starts with http. -/
def chooseHref : List (Option String) → String
  | [] => ""
  | none :: rest => chooseHref rest
  | some h :: rest =>
    if !(h == "") && strIncludes h "/jobs" then h
    else if !(h == "") && startsWithStr h "http" then h
    else chooseHref rest

/-- part 001 per-card extraction: selector cascades for the fields and a
guard keeping the card only when position, company or url is non-empty. -/
def extractB (c : CardB) : Option HtmlRec :=
  let position := jsOr (firstNonEmptyTrimmed c.titleSels) (jsTrim c.anchorText)
  let company := firstNonEmptyTrimmed c.companySels
  let location := firstNonEmptyTrimmed c.locationSels
  let jobUrl := chooseHref c.hrefs
  if !(position == "") || !(company == "") || !(jobUrl == "") then
    some { position := position, company := company, location := location,
           jobUrl := jobUrl, description := "" }
  else none

/-- part 001 HTML extraction over the recognized cards. -/
def parseHtmlB (cards : List CardB) : List HtmlRec :=
  cards.filterMap extractB

/-- part 001 dedup loop: key is the trimmed url, or the position and
company pair when the url is falsy; kept postings get the relative-url
rewrite. -/
def dedupBGo (seen : List String) : List Posting → List Posting
  | [] => []
  | j :: rest =>
    if memStr (jsTrim (jsOr j.jobUrl (j.position ++ "|" ++ j.company))) seen then
      dedupBGo seen rest
    else
      { j with jobUrl := absolutizeUrl j.jobUrl } ::
        dedupBGo (jsTrim (jsOr j.jobUrl (j.position ++ "|" ++ j.company)) :: seen) rest

/-- part 001 deduplicator. -/
def dedupB (js : List Posting) : List Posting :=
  dedupBGo [] js

/-! ## The raw-shape resolver (server.js) -/

/-- The upstream body after transport decoding: an array, a mapping (with
the three recognized array-valued fields made explicit and its JSON
re-serialization carried alongside), a string, or anything else. -/
inductive UpBody where
  | arr : List RawRecord → UpBody
  | obj : Option (List RawRecord) → Option (List RawRecord) → Option (List RawRecord) →
      String → UpBody
  | str : String → UpBody
  | other : UpBody
deriving DecidableEq

/-- Outcome of shape resolution: a raw-record sequence, or delegation of a
markup string to the HTML extraction engine. -/
inductive ShapeRes where
  | records : List RawRecord → ShapeRes
  | delegate : String → ShapeRes
deriving DecidableEq

/-- server.js raw-shape resolver: arrays pass through, mappings yield the
first array-valued field among elements, jobs and data, other mappings
delegate their serialization when it starts with an opening angle bracket
after trimming, strings delegate directly, anything else is empty. -/
def resolveShape : UpBody → ShapeRes
  | .arr xs => .records xs
  | .obj els jobs dat s =>
    match els with
    | some l => .records l
    | none =>
      match jobs with
      | some l => .records l
      | none =>
        match dat with
        | some l => .records l
        | none =>
          if !(s == "") && startsWithStr (jsTrim s) "<" then .delegate s
          else .records []
  | .str s => .delegate s
  | .other => .records []

/-- The resolver exactly as claim C3 words it: the serialized mapping is
delegated only when the text itself begins with an opening angle bracket,
with no trimming. -/
def claimResolve : UpBody → ShapeRes
  | .arr xs => .records xs
  | .obj els jobs dat s =>
    match els with
    | some l => .records l
    | none =>
      match jobs with
      | some l => .records l
      | none =>
        match dat with
        | some l => .records l
        | none =>
          if startsWithStr s "<" then .delegate s
          else .records []
  | .str s => .delegate s
  | .other => .records []

/-- Serialization discipline of the JSON encoder: the re-serialization of a
mapping never begins with a blank (it begins with a brace, bracket, quote,
digit, sign or letter), so only mapping bodies carry a side condition. -/
def serialOk : UpBody → Bool
  | .obj _ _ _ s =>
    match s.data with
    | [] => true
    | c :: _ => !isWsChar c
  | _ => true

/-! ## Dedup characterizations and named concrete inputs -/

/-- The server.js dedup loop with the side assignments stripped: keeps the
first posting per key, threading the seen-key set. -/
def keepFirsts (seen : List String) : List Posting → List Posting
  | [] => []
  | j :: rest =>
    if memStr (dedupKey j) seen then keepFirsts seen rest
    else j :: keepFirsts (dedupKey j :: seen) rest

/-- First-occurrence dedup as the specification words it: a posting is
kept, and every later posting producing the same key is dropped. -/
def specFirstWins : List Posting → List Posting
  | [] => []
  | j :: rest =>
    j :: specFirstWins (rest.filter (fun k => !(dedupKey k == dedupKey j)))
termination_by l => l.length
decreasing_by
  simp only [List.length_cons]
  exact Nat.lt_succ_of_le (List.length_filter_le _ _)

/-- A posting that matches the title vocabulary but no remote token. -/
def jobParis : Posting :=
  { position := "Help Desk Technician", company := "Acme", location := "Paris" }

/-- The part 000 shape of the same remote-free posting. -/
def jobParisZ : JobZ :=
  { position := "Help Desk Technician", company := "Acme", location := "Paris" }

/-- A raw record with both identity aliases empty but a matching
description. -/
def rawDescOnly : RawRecord :=
  { description := "help desk issues" }

/-- The raw record of the location-normalization scenario. -/
def rawScenario : RawRecord :=
  { title := "Help Desk Technician", companyName := "Acme", location := "Remote, US" }

/-- A server.js card whose detail link is a relative path. -/
def cardRel : CardA :=
  { titleText := "T", href := some "/jobs/view/1" }

/-- A pair of postings whose urls collide only after absolutization. -/
def relCollide : List Posting :=
  [{ position := "p", company := "c", jobUrl := "/x" },
   { position := "q", company := "d", jobUrl := "https://www.linkedin.com/x" }]

/-! ## Helper lemmas -/

theorem str_append_data (a b : String) : (a ++ b).data = a.data ++ b.data := by
  cases a
  cases b
  rfl

theorem str_eq_empty_iff (s : String) : s = "" ↔ s.data = [] := by
  constructor
  · intro h
    rw [h]
  · intro h
    cases s with
    | mk d =>
      change d = [] at h
      subst h
      rfl

theorem isPrefixB_append (p r : List Char) : isPrefixB p (p ++ r) = true := by
  induction p with
  | nil => rfl
  | cons c cs ih => simp [isPrefixB, ih]

theorem startsWith_of_data_append (s p : String) (r : List Char) (h : s.data = p.data ++ r) :
    startsWithStr s p = true := by
  unfold startsWithStr
  rw [h]
  exact isPrefixB_append _ _

theorem startsWith_ne_empty (s p : String) (hp : p.data ≠ []) (h : startsWithStr s p = true) :
    s ≠ "" := by
  intro e
  subst e
  unfold startsWithStr at h
  rcases hd : p.data with _ | ⟨c, cs⟩
  · exact hp hd
  · rw [hd] at h
    exact Bool.false_ne_true h

theorem mutateP_position (j : Posting) : (mutateP j).position = j.position := rfl

theorem mutateP_company (j : Posting) : (mutateP j).company = j.company := rfl

theorem mutateP_jobUrl (j : Posting) : (mutateP j).jobUrl = absolutizeUrl j.jobUrl := rfl

theorem mutateP_jobId (j : Posting) :
    (mutateP j).jobId = jsOr (extractJobId j.jobUrl) (dedupKey j) := rfl

theorem absolutizeUrl_of_not_rel (u : String) (h : startsWithStr u "/" = false) :
    absolutizeUrl u = u := by
  simp [absolutizeUrl, h]

theorem host_append_not_rel (u : String) :
    startsWithStr ("https://www.linkedin.com" ++ u) "/" = false := by
  have hd : ("https://www.linkedin.com" ++ u).data
      = 'h' :: ("ttps://www.linkedin.com".data ++ u.data) := by
    rw [str_append_data]
    rfl
  have hs : ("/" : String).data = ['/'] := rfl
  unfold startsWithStr
  rw [hd, hs]
  simp [isPrefixB]

theorem absolutize_not_rel (u : String) : startsWithStr (absolutizeUrl u) "/" = false := by
  by_cases h2 : startsWithStr u "/" = true
  · by_cases h1 : (u == "") = true
    · have he : u = "" := by simpa using h1
      subst he
      rfl
    · have h1f : (u == "") = false := by simpa using h1
      simp only [absolutizeUrl, h1f, h2, Bool.not_false, Bool.and_true, if_true]
      exact host_append_not_rel u
  · have h2f : startsWithStr u "/" = false := by simpa using h2
    rw [absolutizeUrl_of_not_rel u h2f]
    exact h2f

theorem dedupKey_prefix (j : Posting) :
    startsWithStr (dedupKey j) "id:" = true ∨ startsWithStr (dedupKey j) "url:" = true ∨
      startsWithStr (dedupKey j) "pc:" = true := by
  unfold dedupKey
  by_cases h1 : (extractJobId j.jobUrl == "") = true
  · by_cases h2 : (j.jobUrl == "") = true
    · refine Or.inr (Or.inr ?_)
      simp only [h1, h2, Bool.not_true, Bool.false_eq_true, if_false]
      exact startsWith_of_data_append _ _ (j.position.data ++ '|' :: j.company.data)
        (by simp [str_append_data, List.append_assoc])
    · refine Or.inr (Or.inl ?_)
      have h2f : (j.jobUrl == "") = false := by simpa using h2
      simp only [h1, h2f, Bool.not_true, Bool.not_false, Bool.false_eq_true, if_false, if_true]
      exact startsWith_of_data_append _ _ j.jobUrl.data (by simp [str_append_data])
  · refine Or.inl ?_
    have h1f : (extractJobId j.jobUrl == "") = false := by simpa using h1
    simp only [h1f, Bool.not_false, if_true]
    exact startsWith_of_data_append _ _ (extractJobId j.jobUrl).data
      (by simp [str_append_data])

theorem dedupKey_ne_empty (j : Posting) : dedupKey j ≠ "" := by
  rcases dedupKey_prefix j with h | h | h
  · exact startsWith_ne_empty _ _ (by decide) h
  · exact startsWith_ne_empty _ _ (by decide) h
  · exact startsWith_ne_empty _ _ (by decide) h

theorem dedupeGo_eq (js : List Posting) :
    ∀ seen, dedupeGo seen js = (keepFirsts seen js).map mutateP := by
  induction js with
  | nil => intro seen; rfl
  | cons j rest ih =>
    intro seen
    cases h : memStr (dedupKey j) seen with
    | true => simp [dedupeGo, keepFirsts, h, ih]
    | false => simp [dedupeGo, keepFirsts, h, ih]

theorem keepFirsts_eq_spec (js : List Posting) :
    ∀ seen, keepFirsts seen js
      = specFirstWins (js.filter (fun k => !(memStr (dedupKey k) seen))) := by
  induction js with
  | nil => intro seen; simp [keepFirsts, specFirstWins]
  | cons j rest ih =>
    intro seen
    cases h : memStr (dedupKey j) seen with
    | true => simp [keepFirsts, List.filter_cons, h, ih]
    | false =>
      simp only [keepFirsts, h, Bool.false_eq_true, if_false, List.filter_cons,
        Bool.not_false, if_true]
      rw [specFirstWins, ih (dedupKey j :: seen), List.filter_filter]
      have hp : List.filter (fun k => !memStr (dedupKey k) (dedupKey j :: seen)) rest
          = List.filter (fun a => !(dedupKey a == dedupKey j) && !memStr (dedupKey a) seen)
              rest := by
        apply List.filter_congr
        intro k _
        simp [memStr, Bool.not_or]
      rw [hp]

theorem keepFirsts_sublist (js : List Posting) :
    ∀ seen, (keepFirsts seen js).Sublist js := by
  induction js with
  | nil => intro seen; simp [keepFirsts]
  | cons j rest ih =>
    intro seen
    cases h : memStr (dedupKey j) seen with
    | true =>
      simp only [keepFirsts, h, if_true]
      exact (ih seen).cons j
    | false =>
      simp only [keepFirsts, h, Bool.false_eq_true, if_false]
      exact (ih (dedupKey j :: seen)).cons₂ j

theorem keepFirsts_key_not_seen (js : List Posting) :
    ∀ seen x, x ∈ keepFirsts seen js → memStr (dedupKey x) seen = false := by
  induction js with
  | nil => intro seen x hx; simp [keepFirsts] at hx
  | cons j rest ih =>
    intro seen x hx
    cases h : memStr (dedupKey j) seen with
    | true =>
      rw [keepFirsts, h, if_pos rfl] at hx
      exact ih seen x hx
    | false =>
      rw [keepFirsts, h] at hx
      simp only [Bool.false_eq_true, if_false] at hx
      rcases List.mem_cons.mp hx with he | hx2
      · subst he; exact h
      · have h2 := ih (dedupKey j :: seen) x hx2
        simp only [memStr, Bool.or_eq_false_iff] at h2
        exact h2.2

theorem keepFirsts_pairwise (js : List Posting) :
    ∀ seen, (keepFirsts seen js).Pairwise (fun a b => dedupKey a ≠ dedupKey b) := by
  induction js with
  | nil => intro seen; simp [keepFirsts]
  | cons j rest ih =>
    intro seen
    cases h : memStr (dedupKey j) seen with
    | true =>
      simp only [keepFirsts, h, if_true]
      exact ih seen
    | false =>
      simp only [keepFirsts, h, Bool.false_eq_true, if_false]
      refine List.Pairwise.cons ?_ (ih (dedupKey j :: seen))
      intro b hb
      have h2 := keepFirsts_key_not_seen rest (dedupKey j :: seen) b hb
      simp only [memStr, Bool.or_eq_false_iff] at h2
      have h3 : dedupKey b ≠ dedupKey j := by
        intro e
        rw [e] at h2
        simp at h2
      exact h3.symm

theorem keepFirsts_fix :
    ∀ (l : List Posting) (seen : List String),
      (∀ x ∈ l, memStr (dedupKey x) seen = false) →
      l.Pairwise (fun a b => dedupKey a ≠ dedupKey b) →
      keepFirsts seen l = l := by
  intro l
  induction l with
  | nil => intro seen _ _; rfl
  | cons j rest ih =>
    intro seen hsn hpw
    have hj : memStr (dedupKey j) seen = false := hsn j (List.mem_cons_self j rest)
    rw [keepFirsts, hj]
    simp only [Bool.false_eq_true, if_false]
    congr 1
    refine ih (dedupKey j :: seen) ?_ (List.pairwise_cons.mp hpw).2
    intro x hx
    have h1 := hsn x (List.mem_cons_of_mem j hx)
    have h2 : dedupKey j ≠ dedupKey x := (List.pairwise_cons.mp hpw).1 x hx
    simp only [memStr, h1, Bool.or_false]
    exact beq_eq_false_iff_ne.mpr (Ne.symm h2)

theorem mem_dedupeGo (js : List Posting) :
    ∀ seen p, p ∈ dedupeGo seen js → ∃ j, p = mutateP j := by
  induction js with
  | nil => intro seen p hp; simp [dedupeGo] at hp
  | cons j rest ih =>
    intro seen p hp
    cases h : memStr (dedupKey j) seen with
    | true =>
      rw [dedupeGo, h, if_pos rfl] at hp
      exact ih seen p hp
    | false =>
      rw [dedupeGo, h] at hp
      simp only [Bool.false_eq_true, if_false] at hp
      rcases List.mem_cons.mp hp with he | hp2
      · exact ⟨j, he⟩
      · exact ih (dedupKey j :: seen) p hp2

theorem mem_dedupBGo (js : List Posting) :
    ∀ seen p, p ∈ dedupBGo seen js →
      ∃ j : Posting, p = { j with jobUrl := absolutizeUrl j.jobUrl } := by
  induction js with
  | nil => intro seen p hp; simp [dedupBGo] at hp
  | cons j rest ih =>
    intro seen p hp
    cases h : memStr (jsTrim (jsOr j.jobUrl (j.position ++ "|" ++ j.company))) seen with
    | true =>
      rw [dedupBGo, h, if_pos rfl] at hp
      exact ih seen p hp
    | false =>
      rw [dedupBGo, h] at hp
      simp only [Bool.false_eq_true, if_false] at hp
      rcases List.mem_cons.mp hp with he | hp2
      · exact ⟨j, he⟩
      · exact ih _ p hp2

theorem dedupKey_mutateP (j : Posting) (h : startsWithStr j.jobUrl "/" = false) :
    dedupKey (mutateP j) = dedupKey j := by
  unfold dedupKey
  rw [mutateP_jobUrl, absolutizeUrl_of_not_rel _ h, mutateP_position, mutateP_company]

theorem mutateP_idem (j : Posting) (h : startsWithStr j.jobUrl "/" = false) :
    mutateP (mutateP j) = mutateP j := by
  have ha : absolutizeUrl j.jobUrl = j.jobUrl := absolutizeUrl_of_not_rel _ h
  cases j with
  | mk pos comp loc date sal url logo desc ago curl irem icon jid =>
    simp [mutateP, dedupKey, ha]

theorem dropTrail_cons (c : Char) (t : List Char) (h : isWsChar c = false) :
    ∃ t2, dropTrail (c :: t) = c :: t2 := by
  unfold dropTrail
  rw [List.reverse_cons]
  rcases e : t.reverse.dropWhile isWsChar with _ | ⟨d, ds⟩
  · refine ⟨[], ?_⟩
    rw [List.dropWhile_append]
    simp [e, List.dropWhile, h]
  · refine ⟨(d :: ds).reverse, ?_⟩
    rw [List.dropWhile_append]
    simp [e]

/-! ## Claim theorems -/

/-- C1 counterexample: in server.js the requested remote constraint is an
unconditional filter, so a non-empty pre-constraint list in which no posting
matches the remote vocabulary becomes empty instead of being returned
unchanged, refuting the claim as stated. -/
theorem c1_counterexample :
    ¬ (∀ l : List Posting, l ≠ [] → (∀ j ∈ l, remotePred j = false) →
        remoteStage true l = l) := by
  intro hcl
  have h := hcl [jobParis] (by decide) (by decide)
  exact absurd h (by decide)

/-- C1 amended: only the part 000 variant treats the requested remote
constraint as soft: when no posting of the pre-constraint list matches the
remote vocabulary, the list is returned unchanged. -/
theorem c1_amended (l : List JobZ) (hne : l ≠ [])
    (hnomatch : ∀ j ∈ l, remotePredZ j = false) :
    applyRemoteZ true l = l := by
  have hf : l.filter remotePredZ = [] := by
    refine List.filter_eq_nil_iff.mpr ?_
    intro a ha
    simp [hnomatch a ha]
  simp [applyRemoteZ, hf]

theorem c1_witness :
    ([jobParisZ] : List JobZ) ≠ [] ∧
      (∀ j ∈ ([jobParisZ] : List JobZ), remotePredZ j = false) ∧
      applyRemoteZ true [jobParisZ] = [jobParisZ] :=
  ⟨by decide, by decide, c1_amended [jobParisZ] (by decide) (by decide)⟩

/-- C2: in the part 000 filter, when the strict scoring pass yields an empty
list the result is exactly the fuzzy pass keeping the postings whose matching
text contains a required or broader term, capped to the requested limit, and
every surviving posting matches one of the two vocabularies. -/
theorem c2_fuzzy_degradation (js : List JobZ) (must : List String) (limit : Nat)
    (hmust : must ≠ []) (hstrict : strictPass js must = []) :
    finalBeforeRemote js must limit
        = (js.filter (fun j => broaderKeywordsZ.any (fun k => strIncludes (textFor j) k)
            || must.any (fun k => strIncludes (textFor j) k))).take limit
      ∧ ∀ j ∈ finalBeforeRemote js must limit,
          ∃ k, (k ∈ must ∨ k ∈ broaderKeywordsZ) ∧ strIncludes (textFor j) k = true := by
  have h1 : finalBeforeRemote js must limit = fuzzyList js must limit := by
    simp [finalBeforeRemote, hstrict]
  refine ⟨by rw [h1]; rfl, ?_⟩
  intro j hj
  rw [h1] at hj
  have hj2 : j ∈ js.filter (fuzzyPred must) := List.mem_of_mem_take hj
  have hpj : fuzzyPred must j = true := (List.mem_filter.mp hj2).2
  unfold fuzzyPred at hpj
  rcases Bool.or_eq_true_iff.mp hpj with hb | hm
  · obtain ⟨k, hk, hks⟩ := List.any_eq_true.mp hb
    exact ⟨k, Or.inr hk, hks⟩
  · obtain ⟨k, hk, hks⟩ := List.any_eq_true.mp hm
    exact ⟨k, Or.inl hk, hks⟩

theorem c2_witness :
    mustKeywordsZ ≠ [] ∧ strictPass [({} : JobZ)] mustKeywordsZ = [] ∧
      finalBeforeRemote [({} : JobZ)] mustKeywordsZ 10 = [] := by
  refine ⟨by decide, by decide, ?_⟩
  have h := (c2_fuzzy_degradation [({} : JobZ)] mustKeywordsZ 10 (by decide) (by decide)).1
  rw [h]
  decide

/-- C3: the server.js raw-shape resolver follows the claimed first-match-wins
order: arrays pass through, mappings yield the first array-valued field among
elements, jobs and data, other mappings are re-serialized and delegated to the
HTML extraction engine exactly when the text begins with an opening angle
bracket, strings delegate directly, and anything else yields the empty
sequence; the side condition records that a JSON re-serialization never
begins with a blank. -/
theorem c3_resolver_order (b : UpBody) (h : serialOk b = true) :
    resolveShape b = claimResolve b := by
  cases b with
  | arr xs => rfl
  | str s => rfl
  | other => rfl
  | obj els jobs dat s =>
    cases els with
    | some l => rfl
    | none =>
      cases jobs with
      | some l => rfl
      | none =>
        cases dat with
        | some l => rfl
        | none =>
          show (if !(s == "") && startsWithStr (jsTrim s) "<" then ShapeRes.delegate s
                else ShapeRes.records [])
              = (if startsWithStr s "<" then ShapeRes.delegate s else ShapeRes.records [])
          rcases e : s.data with _ | ⟨c, t⟩
          · have hs : s = "" := (str_eq_empty_iff s).mpr e
            subst hs
            decide
          · have hw : isWsChar c = false := by
              have h2 : (match s.data with
                  | [] => true
                  | c :: _ => !isWsChar c) = true := h
              rw [e] at h2
              simpa using h2
            have hne : (s == "") = false := by
              refine beq_eq_false_iff_ne.mpr ?_
              intro hs
              rw [hs] at e
              simp at e
            have h1 : startsWithStr (jsTrim s) "<" = startsWithStr s "<" := by
              unfold startsWithStr jsTrim trimL
              rw [e, List.dropWhile_cons]
              simp only [hw, Bool.false_eq_true, if_false]
              obtain ⟨t2, ht2⟩ := dropTrail_cons c t hw
              rw [ht2]
              show isPrefixB ['<'] (c :: t2) = isPrefixB ['<'] (c :: t)
              simp [isPrefixB]
            rw [h1, hne]
            simp

theorem c3_witness :
    serialOk (UpBody.obj none none none "null") = true ∧
      resolveShape (UpBody.obj none none none "null")
        = claimResolve (UpBody.obj none none none "null") :=
  ⟨by decide, c3_resolver_order _ (by decide)⟩

/-- C4 counterexample: the server.js pipeline keeps a record whose identity
fields are both empty (its description alone matches the keyword filter), so
the claim that such records are dropped and never passed downstream fails on
the richest variant. -/
theorem c4_counterexample :
    (pipelineA false false [rawDescOnly]).length = 1 ∧
      ∀ p ∈ pipelineA false false [rawDescOnly], p.position = "" ∧ p.company = "" := by
  decide

/-- C4 amended: the identity drop exists only in the part 001 variant, whose
normalization stage yields exactly the one normalized posting when an
identity field is non-empty and nothing when both are empty; the server.js
normalizer maps every raw record to a posting with no identity check. -/
theorem c4_amended (raw : RawRecord) :
    normalizedStageB [raw]
      = if (normalizeJobB raw).position = "" ∧ (normalizeJobB raw).company = "" then []
        else [normalizeJobB raw] := by
  by_cases h : (normalizeJobB raw).position = "" ∧ (normalizeJobB raw).company = ""
  · rw [if_pos h]
    simp [normalizedStageB, identityPred, h.1, h.2]
  · rw [if_neg h]
    simp only [normalizedStageB, List.map_cons, List.map_nil, List.filter_cons]
    have hid : identityPred (normalizeJobB raw) = true := by
      unfold identityPred
      rcases not_and_or.mp h with hp | hc
      · simp [beq_eq_false_iff_ne.mpr hp]
      · simp [beq_eq_false_iff_ne.mpr hc]
    simp [hid]

/-- C5 counterexample: the part 001 deduplicator keys on the trimmed url,
or the position and company pair, with no numeric-id parsing, so two
postings whose urls parse to the same numeric job id under the claimed
id-first derivation are both kept by it, while the server.js deduplicator
merges them; the claimed key derivation is therefore false for the part 001
deduplicator. -/
theorem c5_counterexample :
    extractJobId "/jobs/view/5" = "5" ∧
      extractJobId "https://www.linkedin.com/jobs/view/5" = "5" ∧
      (dedupB [{ position := "p", company := "c", jobUrl := "/jobs/view/5" },
               { position := "q", company := "d",
                 jobUrl := "https://www.linkedin.com/jobs/view/5" }]).length = 2 ∧
      (dedupe [{ position := "p", company := "c", jobUrl := "/jobs/view/5" },
               { position := "q", company := "d",
                 jobUrl := "https://www.linkedin.com/jobs/view/5" }]).length = 1 := by
  decide

/-- C5 amended: the server.js deduplicator equals first-occurrence dedup by
the derived key (numeric job id from the url, else full url, else the
position and company pair), with the side assignments applied to each kept
posting and the kept postings forming a subsequence of the input, in input
order; the part 001 deduplicator uses only the url-or-pair key. -/
theorem c5_dedup_first_wins (js : List Posting) :
    dedupe js = (specFirstWins js).map mutateP ∧ (specFirstWins js).Sublist js := by
  have h2 : keepFirsts [] js = specFirstWins js := by
    have h := keepFirsts_eq_spec js []
    simpa [memStr] using h
  constructor
  · rw [dedupe, dedupeGo_eq js [], h2]
  · rw [← h2]
    exact keepFirsts_sublist js []

/-- C6 counterexample: the server.js HTML extraction engine rewrites a
relative detail-link href to absolute form itself, so its output does not
keep the url relative and absolutization does not happen only in the
deduplicator. -/
theorem c6_counterexample :
    cardRel.href = some "/jobs/view/1" ∧ startsWithStr "/jobs/view/1" "/" = true ∧
      (extractA cardRel).jobUrl ≠ "/jobs/view/1" ∧
      (extractA cardRel).jobUrl = "https://www.linkedin.com/jobs/view/1" := by
  decide

/-- C6 amended: the server.js engine absolutizes slash-prefixed hrefs
itself, and both deduplicators absolutize kept postings, so no record
produced by the server.js engine and no posting kept by either deduplicator
carries a relative url. -/
theorem c6_amended (cards : List CardA) (r : HtmlRec) (js js2 : List Posting)
    (j j2 : Posting) (hr : r ∈ parseHtmlA cards) (hj : j ∈ dedupe js)
    (hj2 : j2 ∈ dedupB js2) :
    startsWithStr r.jobUrl "/" = false ∧ startsWithStr j.jobUrl "/" = false ∧
      startsWithStr j2.jobUrl "/" = false := by
  refine ⟨?_, ?_, ?_⟩
  · obtain ⟨c, hc, he⟩ := List.mem_map.mp hr
    rw [← he]
    show startsWithStr (absolutizeUrl (c.href.getD "")) "/" = false
    exact absolutize_not_rel _
  · obtain ⟨x, hx⟩ := mem_dedupeGo js [] j hj
    rw [hx, mutateP_jobUrl]
    exact absolutize_not_rel _
  · obtain ⟨x, hx⟩ := mem_dedupBGo js2 [] j2 hj2
    rw [hx]
    show startsWithStr (absolutizeUrl x.jobUrl) "/" = false
    exact absolutize_not_rel _

theorem c6_witness :
    (extractA cardRel ∈ parseHtmlA [cardRel] ∧ mutateP jobParis ∈ dedupe [jobParis] ∧
      jobParis ∈ dedupB [jobParis]) ∧
      startsWithStr (extractA cardRel).jobUrl "/" = false :=
  ⟨⟨by decide, by decide, by decide⟩,
    (c6_amended [cardRel] (extractA cardRel) [jobParis] [jobParis] (mutateP jobParis)
      jobParis (by decide) (by decide) (by decide)).1⟩

/-- C7 counterexample: on two postings whose urls collide only after the
first run rewrites the relative one to absolute, a second run of the
server.js deduplicator drops a posting, so the deduplicator is not
idempotent as claimed. -/
theorem c7_counterexample :
    (dedupe relCollide).length = 2 ∧ (dedupe (dedupe relCollide)).length = 1 ∧
      dedupe (dedupe relCollide) ≠ dedupe relCollide := by
  decide

/-- C7 amended: the server.js deduplicator is idempotent on inputs in which
no posting carries a relative url, since then the side assignments are
stable and the kept keys are pairwise distinct. -/
theorem c7_amended (js : List Posting)
    (h : ∀ j ∈ js, startsWithStr j.jobUrl "/" = false) :
    dedupe (dedupe js) = dedupe js := by
  have e1 : dedupe js = (keepFirsts [] js).map mutateP := dedupeGo_eq js []
  have hsubK : ∀ k ∈ keepFirsts [] js, startsWithStr k.jobUrl "/" = false := fun k hk =>
    h k ((keepFirsts_sublist js []).subset hk)
  have hkeys : ∀ x ∈ (keepFirsts [] js).map mutateP, memStr (dedupKey x) [] = false := by
    intro x _
    rfl
  have hpw : ((keepFirsts [] js).map mutateP).Pairwise
      (fun a b => dedupKey a ≠ dedupKey b) := by
    rw [List.pairwise_map]
    refine List.Pairwise.imp_of_mem ?_ (keepFirsts_pairwise js [])
    intro a b ha hb hab
    rw [dedupKey_mutateP a (hsubK a ha), dedupKey_mutateP b (hsubK b hb)]
    exact hab
  calc dedupe (dedupe js) = dedupe ((keepFirsts [] js).map mutateP) := by rw [e1]
    _ = (keepFirsts [] ((keepFirsts [] js).map mutateP)).map mutateP := dedupeGo_eq _ []
    _ = ((keepFirsts [] js).map mutateP).map mutateP := by
        rw [keepFirsts_fix _ _ hkeys hpw]
    _ = (keepFirsts [] js).map mutateP := by
        rw [List.map_map]
        refine List.map_congr_left ?_
        intro k hk
        simp only [Function.comp]
        exact mutateP_idem k (hsubK k hk)
    _ = dedupe js := e1.symm

theorem c7_witness :
    (∀ j ∈ ([jobParis] : List Posting), startsWithStr j.jobUrl "/" = false) ∧
      dedupe (dedupe [jobParis]) = dedupe [jobParis] :=
  ⟨by decide, c7_amended [jobParis] (by decide)⟩

/-- C8 counterexample: the server.js HTML extraction engine pushes a record
for every recognized card, including a card whose title, company and url are
all empty, so such a card is not silently skipped in the richest variant. -/
theorem c8_counterexample :
    parseHtmlA [({} : CardA)] = [({} : HtmlRec)] ∧
      ∀ r ∈ parseHtmlA [({} : CardA)],
        r.position = "" ∧ r.company = "" ∧ r.jobUrl = "" := by
  decide

/-- C8 amended: the all-empty-card guard exists only in the part 001
engine: every record it yields has a non-empty title, company or url. -/
theorem c8_amended (cards : List CardB) (r : HtmlRec) (hr : r ∈ parseHtmlB cards) :
    ¬(r.position = "" ∧ r.company = "" ∧ r.jobUrl = "") := by
  obtain ⟨c, hc, he⟩ := List.mem_filterMap.mp hr
  rintro ⟨h1, h2, h3⟩
  simp only [extractB] at he
  by_cases hcond : (!(jsOr (firstNonEmptyTrimmed c.titleSels) (jsTrim c.anchorText) == "")
      || !(firstNonEmptyTrimmed c.companySels == "") || !(chooseHref c.hrefs == "")) = true
  · rw [if_pos hcond] at he
    have hrec := Option.some.inj he
    rw [← hrec] at h1 h2 h3
    simp only at h1 h2 h3
    rw [h1, h2, h3] at hcond
    simp at hcond
  · rw [if_neg hcond] at he
    exact Option.noConfusion he

theorem c8_witness :
    ({ position := "T" } : HtmlRec) ∈ parseHtmlB [({ titleSels := ["T"] } : CardB)] ∧
      ¬(({ position := "T" } : HtmlRec).position = ""
        ∧ ({ position := "T" } : HtmlRec).company = ""
        ∧ ({ position := "T" } : HtmlRec).jobUrl = "") :=
  ⟨by decide, c8_amended [({ titleSels := ["T"] } : CardB)] _ (by decide)⟩

/-- C9 counterexample: the server.js pipeline leaves a posting's location as
the trimmed upstream text; for the scenario body the returned location stays
Remote, US and does not contain the United States token, refuting the claim
that posting locations are synonym-normalized. -/
theorem c9_counterexample :
    (outputJobsA true false 10 [rawScenario]).length = 1 ∧
      ∀ p ∈ outputJobsA true false 10 [rawScenario],
        p.location = "Remote, US" ∧ strIncludes p.location "United States" = false := by
  decide

/-- C9 amended: location normalization (word-bounded US expansion and token
dedup) is implemented by normalizeLocation but applied only to the request
location parameter; the scenario posting is returned with its verbatim
trimmed location and a true remote flag, while normalizeLocation itself
produces the collapsed form. -/
theorem c9_amended :
    (∀ p ∈ outputJobsA true false 10 [rawScenario],
        p.location = "Remote, US" ∧ p.isRemote = true) ∧
      normalizeLocation "Remote, US" = "Remote United States" := by
  decide

/-- C10: every posting in the server.js dedup output has a non-empty jobId:
the parsed numeric id when the original url yields one, else the dedup key,
which always carries one of the prefixes id:, url: or pc: and is therefore
never empty. -/
theorem c10_jobId_nonempty (js : List Posting) (p : Posting) (hp : p ∈ dedupe js) :
    p.jobId ≠ "" ∧ ∃ j ∈ js, p = mutateP j ∧
      (extractJobId j.jobUrl ≠ "" → p.jobId = extractJobId j.jobUrl) ∧
      (extractJobId j.jobUrl = "" → p.jobId = dedupKey j) ∧
      (startsWithStr (dedupKey j) "id:" = true ∨ startsWithStr (dedupKey j) "url:" = true ∨
        startsWithStr (dedupKey j) "pc:" = true) := by
  rw [dedupe, dedupeGo_eq js []] at hp
  obtain ⟨j, hj, he⟩ := List.mem_map.mp hp
  have hjs : j ∈ js := (keepFirsts_sublist js []).subset hj
  subst he
  refine ⟨?_, j, hjs, rfl, ?_, ?_, dedupKey_prefix j⟩
  · rw [mutateP_jobId]
    unfold jsOr
    by_cases hx : (extractJobId j.jobUrl == "") = true
    · rw [if_pos hx]
      exact dedupKey_ne_empty j
    · rw [if_neg hx]
      simpa using hx
  · intro hne
    rw [mutateP_jobId]
    unfold jsOr
    rw [if_neg (by simpa using hne)]
  · intro heq
    rw [mutateP_jobId]
    unfold jsOr
    rw [if_pos (by simpa using heq)]

theorem c10_witness :
    mutateP ({} : Posting) ∈ dedupe [({} : Posting)] ∧
      (mutateP ({} : Posting)).jobId ≠ "" :=
  ⟨by decide, (c10_jobId_nonempty [({} : Posting)] (mutateP ({} : Posting)) (by decide)).1⟩
